import Mathlib

/-!
# Verification of FastPCC's indexed continuous entropy-coding engine

Shallow embedding of the quantization / CDF-table / compress-decompress
machinery of `lib/entropy_models/continuous_base.py` and
`lib/entropy_models/continuous_indexed.py`, together with the coding-unit
framing of `models/convolutional/baseline/model.py`.

Tensors are modelled as lists of rationals (payloads), lists of index
tuples (indexes), and lists of naturals (byte strings).  The external
range-coder primitive (compressai `ans`), the compressai C++
`pmf_to_quantized_cdf` routine and the helpers of
`lib/entropy_models/utils.py` (`lower_bound`, `upper_bound`,
`quantization_offset`) are not part of the repository sources; they are
modelled from the specification's contract, as flagged in their doc
comments.
-/

namespace FastPCC

/-- Model of `torch.round` / `Tensor.round_`: round half to even (banker's rounding),
the rounding used by `quantize` and `flatten_indexes`. -/
def roundEven (q : ℚ) : ℤ :=
  if q - ⌊q⌋ < 1/2 then ⌊q⌋
  else if q - ⌊q⌋ > 1/2 then ⌊q⌋ + 1
  else if ⌊q⌋ % 2 = 0 then ⌊q⌋ else ⌊q⌋ + 1

/-- Round half away from zero (for non-negative arguments, round half up);
the rounding of the spec's standard PMF→CDF quantization procedure. -/
def roundHalfUp (q : ℚ) : ℤ := ⌊q + 1/2⌋

/-- Modelled from the spec: `lower_bound` from `lib/entropy_models/utils.py`
(missing from `src/`); at decode time it is a hard elementwise clamp from
below. -/
def lower_bound (x bound : ℚ) : ℚ := max x bound

/-- Modelled from the spec: `upper_bound` from `lib/entropy_models/utils.py`
(missing from `src/`); at decode time it is a hard elementwise clamp from
above. -/
def upper_bound (x bound : ℚ) : ℚ := min x bound

/-- One component of `ContinuousIndexedEntropyModel.normalize_indexes`:
clamp index value `x` of a dimension with range `r` into `[0, r-1]`
(`continuous_indexed.py` lines 88-102). -/
def normalize_index1 (r : ℕ) (x : ℚ) : ℚ :=
  upper_bound (lower_bound x 0) ((r : ℚ) - 1)

/-- Model of `ContinuousIndexedEntropyModel.normalize_indexes` on one index tuple:
each dimension is clamped independently into `[0, index_ranges[d]-1]`. -/
def normalize_indexes : List ℕ → List ℚ → List ℚ
  | r :: rs, x :: xs => normalize_index1 r x :: normalize_indexes rs xs
  | _, _ => []

/-- Model of `torch.cumprod` with running accumulator. -/
def cumprodFrom (acc : ℕ) : List ℕ → List ℕ
  | [] => []
  | x :: xs => (acc * x) :: cumprodFrom (acc * x) xs

/-- The strides tensor of `flatten_indexes`
(`continuous_indexed.py` lines 141-145):
`flip(cumprod((1, *index_ranges[:0:-1])))`. -/
def flatten_strides (ranges : List ℕ) : List ℕ :=
  (cumprodFrom 1 (1 :: (ranges.drop 1).reverse)).reverse

/-- Integer dot product, modelling `torch.tensordot` over the last axis. -/
def dotProd : List ℤ → List ℕ → ℤ
  | i :: is, s :: ss => i * (s : ℤ) + dotProd is ss
  | _, _ => 0

/-- Model of `ContinuousIndexedEntropyModel.flatten_indexes` on one index tuple
(`continuous_indexed.py` lines 131-146): round, then (with more than one
index dimension) contract with the stride tensor; with a single index
dimension just round and cast to int32. -/
def flatten_indexes (ranges : List ℕ) (idx : List ℚ) : ℤ :=
  if ranges.length = 1 then
    match idx with
    | x :: _ => roundEven x
    | [] => 0
  else
    dotProd (idx.map roundEven) (flatten_strides ranges)

/-- The mixed-radix row-major key of the spec:
`key = Σ_d idx[d] * Π_{d' > d} index_ranges[d']`.
Stated from the spec's words, to be compared with `flatten_indexes`. -/
def mixedRadixKey : List ℕ → List ℤ → ℤ
  | _ :: rs, i :: is => i * ((rs.prod : ℕ) : ℤ) + mixedRadixKey rs is
  | _, _ => 0

/-- Integer bound `minima = floor(lower_tail - offset)` of
`build_quantized_cdf_table` (`continuous_base.py` line 238). -/
def minima (lower_tail offset : ℚ) : ℤ := ⌊lower_tail - offset⌋

/-- Integer bound `maxima = ceil(upper_tail - offset)` before the stability
clamp (`continuous_base.py` line 239). -/
def maxima_raw (upper_tail offset : ℚ) : ℤ := ⌈upper_tail - offset⌉

/-- Value of `maxima` after the stability clamp `maxima.clip_(minima)`
(`continuous_base.py` line 241). -/
def maxima (lower_tail upper_tail offset : ℚ) : ℤ :=
  max (maxima_raw upper_tail offset) (minima lower_tail offset)

/-- Window length `pmf_length = maxima - minima + 1` (`continuous_base.py` line 245). -/
def pmf_length (lower_tail upper_tail offset : ℚ) : ℤ :=
  maxima lower_tail upper_tail offset - minima lower_tail offset + 1

/-- Errors raised by the entropy-model code.  `notImplementedError` is what
the source raises both for the unimplemented exact-CDF table path and for a
distribution without usable tail hooks (the spec's `UnsupportedDistribution`);
`assertionError` models failed `assert` statements. -/
inductive EMError
  | notImplementedError
  | assertionError
deriving DecidableEq, Repr

/-- Capability flags of the wrapped distribution, as probed by duck typing
in `DistributionQuantizedCDFTable.__init__` / `estimate_tail`
(`continuous_base.py` lines 77-163). -/
structure DistCapabilities where
  icdf_available : Bool
  has_lower_tail : Bool
  has_upper_tail : Bool
  has_logits_cdf_for_estimation : Bool
  has_log_cdf_for_estimation : Bool
  has_log_survival_function_for_estimation : Bool
deriving DecidableEq, Repr

/-- How each tail is obtained after `estimate_tail` succeeds. -/
inductive TailSpec
  | fromICdf
  | fromTailHook
  | fromAuxParam
deriving DecidableEq, Repr

/-- Lower-tail branch of `DistributionQuantizedCDFTable.estimate_tail`
(`continuous_base.py` lines 105-133). -/
def estimate_lower_tail (c : DistCapabilities) : Except EMError TailSpec :=
  if c.icdf_available then .ok .fromICdf
  else if c.has_lower_tail then .ok .fromTailHook
  else if c.has_logits_cdf_for_estimation then .ok .fromAuxParam
  else if c.has_log_cdf_for_estimation then .ok .fromAuxParam
  else .error .notImplementedError

/-- Upper-tail branch of `DistributionQuantizedCDFTable.estimate_tail`
(`continuous_base.py` lines 135-163). -/
def estimate_upper_tail (c : DistCapabilities) : Except EMError TailSpec :=
  if c.icdf_available then .ok .fromICdf
  else if c.has_upper_tail then .ok .fromTailHook
  else if c.has_logits_cdf_for_estimation then .ok .fromAuxParam
  else if c.has_log_survival_function_for_estimation then .ok .fromAuxParam
  else .error .notImplementedError

/-- Model of `DistributionQuantizedCDFTable.estimate_tail`: set up both tails,
failing whenever either branch has no usable hook. -/
def estimate_tail (c : DistCapabilities) : Except EMError (TailSpec × TailSpec) :=
  match estimate_lower_tail c, estimate_upper_tail c with
  | .ok lo, .ok hi => .ok (lo, hi)
  | .error e, _ => .error e
  | .ok _, .error e => .error e

/-- Tail-setup effect of `DistributionQuantizedCDFTable.__init__`
(`continuous_base.py` lines 74-85): with a scalar event shape, probe
`base.cdf`; when the cdf is unavailable, run `estimate_tail`. -/
def initTailSetup (base_cdf_available : Bool) (c : DistCapabilities) :
    Except EMError (Option (TailSpec × TailSpec)) :=
  if base_cdf_available then .ok none
  else (estimate_tail c).map some

/-- Buffer state of a `DistributionQuantizedCDFTable` module: the staleness
flag and the cached flat arrays consumed by the range coder
(`continuous_base.py` lines 66-72 and 277-284). -/
structure CDFTableState where
  requires_updating_cdf_table : Bool
  cached_cdf_table_list : List (List ℤ)
  cached_cdf_length_list : List ℤ
  cached_cdf_offset_list : List ℤ
deriving DecidableEq, Repr

/-- Effect of a completed `build_quantized_cdf_table` run on the cached
state (`continuous_base.py` lines 271-275): install the freshly computed
arrays and clear the staleness flag. -/
def build_cdf_effect (fresh : List (List ℤ) × List ℤ × List ℤ) : CDFTableState :=
  { requires_updating_cdf_table := false
    cached_cdf_table_list := fresh.1
    cached_cdf_length_list := fresh.2.1
    cached_cdf_offset_list := fresh.2.2 }

/-- Model of `DistributionQuantizedCDFTable.train` (`continuous_base.py` lines
326-336): entering training mode only sets the staleness flag; entering
eval mode rebuilds the table when the flag is set.  `fresh` stands for the
arrays a `build_quantized_cdf_table` run would compute. -/
def trainTransition (fresh : List (List ℤ) × List ℤ × List ℤ)
    (s : CDFTableState) (mode : Bool) : CDFTableState :=
  if mode then { s with requires_updating_cdf_table := true }
  else if s.requires_updating_cdf_table then build_cdf_effect fresh
  else s

/-- Entry gate of `build_quantized_cdf_table` (`continuous_base.py` lines
224-227): the exact-CDF path is unimplemented, so a distribution whose
`cdf` is available cannot be table-built; otherwise the build succeeds and
installs fresh arrays. -/
def build_quantized_cdf_table_gate (base_cdf_available : Bool)
    (fresh : List (List ℤ) × List ℤ × List ℤ) (_s : CDFTableState) :
    Except EMError CDFTableState :=
  if base_cdf_available then .error .notImplementedError
  else .ok (build_cdf_effect fresh)

/-- Model of `ContinuousEntropyModelBase.quantize` (`continuous_base.py` lines
422-432) as explicit buffer passing: the input tensor is mutated in place
(`x -= offset; torch.round_(x)`, then `x += offset` when
`return_dequantized`).  Returns `(quantized_x, final contents of the
caller's tensor)`. -/
def quantize (x offset : ℚ) (return_dequantized : Bool) : ℤ × ℚ :=
  let x1 := x - offset
  let x2 : ℚ := (roundEven x1 : ℤ)
  (roundEven x1, if return_dequantized then x2 + offset else x2)

/-- Model of `ContinuousEntropyModelBase.dequantize` (`continuous_base.py` lines
434-440): add the offset back and cast to float. -/
def dequantize (x : ℤ) (offset : ℚ) : ℚ := (x : ℚ) + offset

/-- Buffer effect of `LocationScaleIndexedEntropyModel.compress`
(`continuous_indexed.py` lines 254-259) on the caller's payload tensor:
`x -= loc` mutates in place, then the inherited `compress` quantizes the
same buffer in place (with `return_dequantized` left at its default
`False`) unless `is_x_quantized` is set. -/
def ls_compress_buffer (x : ℚ) (loc : Option ℚ) (offset : ℚ)
    (is_x_quantized : Bool) : ℚ :=
  let x1 := match loc with
    | some l => x - l
    | none => x
  if is_x_quantized then x1 else (quantize x1 offset false).2

/-- Modelled from the spec: `RansEncoder.encode_with_indexes` of the
external compressai `ans` range coder.  The spec treats the primitive as a
correct, already-available range coder specified only by its interface
contract, so the produced byte string is modelled opaquely as the symbol
sequence itself. -/
def encode_with_indexes (symbols _indexes : List ℤ)
    (_cdfs : List (List ℤ)) (_lengths _offsets : List ℤ) : List ℤ :=
  symbols

/-- Modelled from the spec: `RansDecoder.decode_with_indexes` of the
external compressai `ans` range coder; inverse of `encode_with_indexes`
under the spec's lossless-coder contract. -/
def decode_with_indexes (string _indexes : List ℤ)
    (_cdfs : List (List ℤ)) (_lengths _offsets : List ℤ) : List ℤ :=
  string

/-- Model of `ContinuousIndexedEntropyModel.compress` on a single coding unit
(`continuous_indexed.py` lines 148-188): normalize indexes, flatten them to
table keys, check the shape `assert`, quantize the payload against the
per-element offset of the prior built on the normalized indexes (the
`quantization_offset` policy — from the missing `utils.py` — is the
abstract parameter `qoff`), and hand symbols, keys and the cached table
arrays to the range-coder primitive. -/
def compress_unit (s : CDFTableState) (qoff : List ℚ → ℚ) (ranges : List ℕ)
    (x : List ℚ) (indexes : List (List ℚ)) : Except EMError (List ℤ) :=
  let nidx := indexes.map (normalize_indexes ranges)
  let flat := nidx.map (flatten_indexes ranges)
  if flat.length = x.length then
    let offs := nidx.map qoff
    let syms := List.zipWith (fun xi oi => (quantize xi oi false).1) x offs
    .ok (encode_with_indexes syms flat s.cached_cdf_table_list
          s.cached_cdf_length_list s.cached_cdf_offset_list)
  else .error .assertionError

/-- Model of `ContinuousIndexedEntropyModel.decompress` on a single coding unit
(`continuous_indexed.py` lines 190-218): normalize and flatten the same
indexes, decode the byte string with the cached table arrays, and
dequantize with each element's offset. -/
def decompress_unit (s : CDFTableState) (qoff : List ℚ → ℚ) (ranges : List ℕ)
    (string : List ℤ) (indexes : List (List ℚ)) : List ℚ :=
  let nidx := indexes.map (normalize_indexes ranges)
  let flat := nidx.map (flatten_indexes ranges)
  let syms := decode_with_indexes string flat s.cached_cdf_table_list
      s.cached_cdf_length_list s.cached_cdf_offset_list
  List.zipWith (fun si oi => dequantize si oi) syms (nidx.map qoff)

/-- Running cumulative sums (partial sums of a PMF). -/
def cumsumFrom (acc : ℚ) : List ℚ → List ℚ
  | [] => []
  | x :: xs => (acc + x) :: cumsumFrom (acc + x) xs

/-- Enforce monotonicity by a running maximum. -/
def monotonizeFrom (prev : ℤ) : List ℤ → List ℤ
  | [] => []
  | x :: xs => max prev x :: monotonizeFrom (max prev x) xs

/-- Modelled from the spec: compressai's C++ `_pmf_to_quantized_cdf`
(external, not part of the repository sources).  Per the spec's §4.2 it
quantizes a PMF to a monotone integer CDF of total `2^precision`: scale the
cumulative sums to the precision range, round to nearest (half away from
zero), enforce monotonicity, and pin the final entry to `2^precision`; the
returned sequence starts at 0 and has one more entry than the PMF. -/
def pmf_to_quantized_cdf (pmf : List ℚ) (precision : ℕ) : List ℤ :=
  let total := pmf.sum
  let entries := (cumsumFrom 0 pmf).map
    fun sm => roundHalfUp (sm / total * (2 ^ precision : ℕ))
  0 :: (monotonizeFrom 0 entries.dropLast ++ [((2 ^ precision : ℕ) : ℤ)])

/-- One row of `batched_pmf_to_quantized_cdf` (`continuous_base.py` lines
16-38): truncate the PMF to its own length, append the overflow bin
`max(0, 1 - sum(pmf))`, quantize, and zero-pad the row to `max_length + 2`
columns. -/
def batched_row (pmf : List ℚ) (pl : ℕ) (max_length : ℕ) : List ℤ :=
  let p := pmf.take pl
  let overflow := max 0 (1 - p.sum)
  let c := pmf_to_quantized_cdf (p ++ [overflow]) 16
  c ++ List.replicate (max_length + 2 - c.length) 0

/-- The stored validity length `cdf_length = pmf_length + 2`
(`continuous_base.py` line 268). -/
def cdf_length_of (pl : ℕ) : ℕ := pl + 2

/-- Model of `int.to_bytes(3, 'little')`: the 3-byte little-endian length prefix
written by `PCC.compress_partitions`
(`models/convolutional/baseline/model.py` lines 414-416). -/
def to_bytes_3_le (n : ℕ) : List ℕ :=
  [n % 256, n / 256 % 256, n / 65536 % 256]

/-- The concatenated byte stream of `PCC.compress_partitions`: each unit's
bytes preceded by its 3-byte little-endian length. -/
def concat_payload (units : List (List ℕ)) : List ℕ :=
  (units.map fun u => to_bytes_3_le u.length ++ u).flatten

/-- Model of `PCC.compress_partitions` framing (`model.py` lines 402-417):
`functools.reduce` over the per-partition strings; on an empty partition
list `reduce` has no initial value and raises, hence `none`. -/
def compress_partitions_framing (units : List (List ℕ)) : Option (List ℕ) :=
  match units with
  | [] => none
  | _ => some (concat_payload units)

/-- Parsing loop of `PCC.decompress_partitions` (`model.py` lines 474-490),
fuel-indexed for structural recursion: read a 3-byte little-endian length,
split off that many bytes, and repeat until the stream is exhausted; a
truncated stream fails. -/
def split_units_fuel : ℕ → List ℕ → Option (List (List ℕ))
  | _, [] => some []
  | 0, _ :: _ => none
  | fuel + 1, b0 :: b1 :: b2 :: rest =>
    let n := b0 + 256 * b1 + 65536 * b2
    if n ≤ rest.length then
      match split_units_fuel fuel (rest.drop n) with
      | some us => some (rest.take n :: us)
      | none => none
    else none
  | _ + 1, _ => none

/-- Model of `PCC.decompress_partitions` framing: parse the whole concatenated
stream into its units (each step consumes at least three bytes, so the
stream's length is enough fuel). -/
def decompress_partitions_framing (stream : List ℕ) : Option (List (List ℕ)) :=
  split_units_fuel stream.length stream

/-! ## Theorems -/

/-- C4: for every pair of real-valued tail bounds — also inverted ones with
`upper_tail < lower_tail` — the integer bounds after the stability clamp
satisfy `maxima ≥ minima`, hence `pmf_length = maxima - minima + 1 ≥ 1` and
no negative-length PMF window is produced. -/
theorem C4_stability_clamp (lower_tail upper_tail offset : ℚ) :
    minima lower_tail offset ≤ maxima lower_tail upper_tail offset ∧
    1 ≤ pmf_length lower_tail upper_tail offset := by
  have h : minima lower_tail offset ≤ maxima lower_tail upper_tail offset :=
    le_max_right _ _
  refine ⟨h, ?_⟩
  unfold pmf_length
  omega

/-- C8: a wrapped distribution offering neither an inverse CDF nor any of
the tail / tail-estimation hooks makes `estimate_tail` fail, and the
failure already happens during `__init__` when the base cdf is
unavailable, so no table can ever be built for that model. -/
theorem C8_unsupported_distribution (c : DistCapabilities)
    (h1 : c.icdf_available = false)
    (h2 : c.has_lower_tail = false)
    (h3 : c.has_upper_tail = false)
    (h4 : c.has_logits_cdf_for_estimation = false)
    (h5 : c.has_log_cdf_for_estimation = false)
    (h6 : c.has_log_survival_function_for_estimation = false) :
    estimate_tail c = .error .notImplementedError ∧
    initTailSetup false c = .error .notImplementedError := by
  simp [estimate_tail, estimate_lower_tail, estimate_upper_tail, initTailSetup,
    h1, h2, h3, h4, h5, h6, Except.map]

/-- Witness for C8 at a concrete capability record with every hook
absent. -/
theorem C8_witness :
    estimate_tail ⟨false, false, false, false, false, false⟩
      = .error .notImplementedError ∧
    initTailSetup false ⟨false, false, false, false, false, false⟩
      = .error .notImplementedError :=
  C8_unsupported_distribution ⟨false, false, false, false, false, false⟩
    rfl rfl rfl rfl rfl rfl

/-- C9: when the base distribution's `cdf` is implemented, every call of
`build_quantized_cdf_table` raises `NotImplementedError`; consequently a
table is only ever built when the base cdf is unavailable. -/
theorem C9_exact_cdf_path_unimplemented :
    (∀ fresh s, build_quantized_cdf_table_gate true fresh s
      = .error .notImplementedError) ∧
    (∀ b fresh s st, build_quantized_cdf_table_gate b fresh s = .ok st →
      b = false) := by
  constructor
  · intro fresh s
    rfl
  · intro b fresh s st h
    cases b
    · rfl
    · exact absurd h (by simp [build_quantized_cdf_table_gate])

/-- Witness for C9: the gate errors at a concrete state with the cdf
available, and a concrete successful build forces the cdf-unavailable
flag. -/
theorem C9_witness :
    build_quantized_cdf_table_gate true ⟨[], [], []⟩ ⟨true, [], [], []⟩
      = .error .notImplementedError ∧
    (false : Bool) = false :=
  ⟨C9_exact_cdf_path_unimplemented.1 ⟨[], [], []⟩ ⟨true, [], [], []⟩,
   C9_exact_cdf_path_unimplemented.2 false ⟨[], [], []⟩ ⟨true, [], [], []⟩
     (build_cdf_effect ⟨[], [], []⟩) rfl⟩

/-- C10 counterexample: with `return_dequantized = True` the caller's
tensor is not restored to its original value — for `x = 2/5` and offset 0
the buffer ends holding the dequantized value `0`, not `2/5`. -/
theorem C10_counterexample :
    (quantize (2/5) 0 true).2 = 0 ∧ (quantize (2/5) 0 true).2 ≠ 2/5 := by
  norm_num [quantize, roundEven]

/-- C10 (amended): `quantize` mutates its input buffer in place — after the
call the caller's tensor holds `round(x - offset)`, or the dequantized
value `round(x - offset) + offset` (not in general the original value) when
`return_dequantized` is true — and `LocationScaleIndexedEntropyModel.compress`
with a non-`None` `loc` subtracts `loc` from the caller's tensor in place,
so the payload argument is not left unchanged by compression. -/
theorem C10_amended_buffer_effects (x offset loc : ℚ) (rd : Bool) :
    (quantize x offset rd).1 = roundEven (x - offset) ∧
    (quantize x offset rd).2 =
      (if rd then (roundEven (x - offset) : ℚ) + offset
       else (roundEven (x - offset) : ℚ)) ∧
    ls_compress_buffer x (some loc) offset false =
      (roundEven (x - loc - offset) : ℚ) ∧
    ls_compress_buffer x (some loc) offset true = x - loc := by
  refine ⟨rfl, ?_, ?_, rfl⟩
  · cases rd <;> simp [quantize]
  · simp [ls_compress_buffer, quantize]

/-- C3 counterexample: encoding while the table is flagged stale
(`requires_updating_cdf_table = True`) does not raise — `compress` performs
no staleness check and returns a byte string against the cached table. -/
theorem C3_counterexample :
    (⟨true, [[0, 65536]], [2], [0]⟩ : CDFTableState).requires_updating_cdf_table
      = true ∧
    compress_unit ⟨true, [[0, 65536]], [2], [0]⟩ (fun _ => 0) [4] [1] [[2]]
      = .ok [1] := by
  refine ⟨rfl, ?_⟩
  norm_num [compress_unit, normalize_indexes, normalize_index1, lower_bound,
    upper_bound, flatten_indexes, roundEven, quantize, encode_with_indexes]

/-- C3 (amended): `compress`/`decompress` never consult the staleness flag
— their result is independent of `requires_updating_cdf_table` and no
`TableStaleError` exists — while staleness is handled by the mode
transition instead: `train()` sets the flag and `eval()` rebuilds the
table, clearing the flag, whenever it is set. -/
theorem C3_amended_staleness_discipline (s : CDFTableState) (b : Bool)
    (qoff : List ℚ → ℚ) (ranges : List ℕ) (x : List ℚ)
    (indexes : List (List ℚ)) (string : List ℤ)
    (fresh : List (List ℤ) × List ℤ × List ℤ) :
    compress_unit { s with requires_updating_cdf_table := b } qoff ranges x
        indexes
      = compress_unit s qoff ranges x indexes ∧
    decompress_unit { s with requires_updating_cdf_table := b } qoff ranges
        string indexes
      = decompress_unit s qoff ranges string indexes ∧
    (trainTransition fresh s true).requires_updating_cdf_table = true ∧
    (s.requires_updating_cdf_table = true →
      trainTransition fresh s false = build_cdf_effect fresh ∧
      (trainTransition fresh s false).requires_updating_cdf_table = false) := by
  refine ⟨rfl, rfl, rfl, ?_⟩
  intro hs
  simp [trainTransition, hs, build_cdf_effect]

/-- Witness for C3's amended statement at a concrete stale state. -/
theorem C3_amended_witness :
    compress_unit { (⟨true, [[0, 65536]], [2], [0]⟩ : CDFTableState) with
        requires_updating_cdf_table := false } (fun _ => 0) [4] [1] [[2]]
      = compress_unit ⟨true, [[0, 65536]], [2], [0]⟩ (fun _ => 0) [4] [1] [[2]] ∧
    decompress_unit { (⟨true, [[0, 65536]], [2], [0]⟩ : CDFTableState) with
        requires_updating_cdf_table := false } (fun _ => 0) [4] [1] [[2]]
      = decompress_unit ⟨true, [[0, 65536]], [2], [0]⟩ (fun _ => 0) [4] [1] [[2]] ∧
    (trainTransition ⟨[[0, 9]], [3], [1]⟩ ⟨true, [[0, 65536]], [2], [0]⟩
        true).requires_updating_cdf_table = true ∧
    ((⟨true, [[0, 65536]], [2], [0]⟩ : CDFTableState).requires_updating_cdf_table
        = true →
      trainTransition ⟨[[0, 9]], [3], [1]⟩ ⟨true, [[0, 65536]], [2], [0]⟩ false
        = build_cdf_effect ⟨[[0, 9]], [3], [1]⟩ ∧
      (trainTransition ⟨[[0, 9]], [3], [1]⟩ ⟨true, [[0, 65536]], [2], [0]⟩
          false).requires_updating_cdf_table = false) :=
  C3_amended_staleness_discipline ⟨true, [[0, 65536]], [2], [0]⟩ false
    (fun _ => 0) [4] [1] [[2]] [1] ⟨[[0, 9]], [3], [1]⟩

/-- Computing `cumprodFrom` over a snoc: the appended position holds the full
product. -/
theorem cumprodFrom_append (l : List ℕ) : ∀ (a x : ℕ),
    cumprodFrom a (l ++ [x]) = cumprodFrom a l ++ [a * l.prod * x] := by
  induction l with
  | nil => intro a x; simp [cumprodFrom]
  | cons y ys ih =>
    intro a x
    simp [cumprodFrom, ih, List.prod_cons, Nat.mul_assoc]

/-- Structure of the stride tensor: the stride of the leading dimension is
the product of the remaining ranges, and the tail strides only depend on
the remaining ranges. -/
theorem flatten_strides_cons (r s : ℕ) (ss : List ℕ) :
    flatten_strides (r :: s :: ss) = (s :: ss).prod :: flatten_strides (s :: ss) := by
  unfold flatten_strides
  simp only [List.drop_one, List.tail_cons, List.reverse_cons]
  simp [cumprodFrom, cumprodFrom_append, List.reverse_append,
    List.prod_reverse, Nat.mul_comm]

/-- Base case of the stride tensor: a trailing dimension has stride 1. -/
theorem flatten_strides_single (r : ℕ) : flatten_strides [r] = [1] := by
  simp [flatten_strides, cumprodFrom]

/-- The stride contraction of `flatten_indexes` computes the spec's
mixed-radix row-major key. -/
theorem dotProd_strides_eq_mixedRadixKey (rs : List ℕ) : ∀ (r0 : ℕ) (i : ℤ)
    (is : List ℤ), is.length = rs.length →
    dotProd (i :: is) (flatten_strides (r0 :: rs)) = mixedRadixKey (r0 :: rs) (i :: is) := by
  induction rs with
  | nil =>
    intro r0 i is hlen
    rw [List.length_nil, List.length_eq_zero] at hlen
    subst hlen
    simp [flatten_strides_single, dotProd, mixedRadixKey]
  | cons s ss ih =>
    intro r0 i is hlen
    match is, hlen with
    | j :: js, hlen =>
      rw [flatten_strides_cons]
      have hjs : js.length = ss.length := by
        simpa using hlen
      calc dotProd (i :: j :: js) ((s :: ss).prod :: flatten_strides (s :: ss))
          = i * ((s :: ss).prod : ℤ) + dotProd (j :: js) (flatten_strides (s :: ss)) := by
            simp [dotProd]
        _ = i * ((s :: ss).prod : ℤ) + mixedRadixKey (s :: ss) (j :: js) := by
            rw [ih s j js hjs]
        _ = mixedRadixKey (r0 :: s :: ss) (i :: j :: js) := by
            simp [mixedRadixKey]

/-- The mixed-radix key of in-range integer digits lies in
`[0, Π index_ranges)`. -/
theorem mixedRadixKey_bound (ranges : List ℕ) : ∀ (is : List ℤ),
    is.length = ranges.length →
    (∀ p ∈ is.zip ranges, 0 ≤ p.1 ∧ p.1 < (p.2 : ℤ)) →
    0 ≤ mixedRadixKey ranges is ∧
    mixedRadixKey ranges is < ((ranges.prod : ℕ) : ℤ) := by
  induction ranges with
  | nil =>
    intro is hlen _
    rw [List.length_nil, List.length_eq_zero] at hlen
    subst hlen
    simp [mixedRadixKey]
  | cons r rs ih =>
    intro is hlen hin
    match is, hlen with
    | i :: is', hlen =>
      have hlen' : is'.length = rs.length := by simpa using hlen
      have hhead : 0 ≤ i ∧ i < (r : ℤ) := hin (i, r) (by simp [List.zip_cons_cons])
      have htail : ∀ p ∈ is'.zip rs, 0 ≤ p.1 ∧ p.1 < (p.2 : ℤ) := by
        intro p hp
        exact hin p (by simp [List.zip_cons_cons, hp])
      obtain ⟨hsub0, hsub1⟩ := ih is' hlen' htail
      have hP : (0 : ℤ) ≤ ((rs.prod : ℕ) : ℤ) := Int.natCast_nonneg _
      constructor
      · have : 0 ≤ i * ((rs.prod : ℕ) : ℤ) := mul_nonneg hhead.1 hP
        simp only [mixedRadixKey]
        omega
      · have hi1 : i ≤ (r : ℤ) - 1 := by omega
        have hmul : i * ((rs.prod : ℕ) : ℤ) ≤ ((r : ℤ) - 1) * ((rs.prod : ℕ) : ℤ) :=
          mul_le_mul_of_nonneg_right hi1 hP
        have hprod : (((r :: rs).prod : ℕ) : ℤ) = (r : ℤ) * ((rs.prod : ℕ) : ℤ) := by
          push_cast [List.prod_cons]
          ring
        simp only [mixedRadixKey]
        rw [hprod]
        nlinarith

/-- The floor is a lower bound for `roundEven`. -/
theorem floor_le_roundEven (q : ℚ) : ⌊q⌋ ≤ roundEven q := by
  unfold roundEven
  split_ifs <;> omega

/-- The ceiling is an upper bound for `roundEven`. -/
theorem roundEven_le_ceil (q : ℚ) : roundEven q ≤ ⌈q⌉ := by
  unfold roundEven
  have hfc := Int.floor_le_ceil q
  split_ifs with h1 h2 h3
  · exact hfc
  · have hq : (⌊q⌋ : ℚ) < q := by
      have h12 : (0 : ℚ) < 1/2 := by norm_num
      linarith [h2]
    have : ⌊q⌋ < ⌈q⌉ := Int.lt_ceil.mpr hq
    omega
  · exact hfc
  · have hq : (⌊q⌋ : ℚ) < q := by
      have heq : q - ⌊q⌋ = 1/2 := by linarith
      linarith
    have : ⌊q⌋ < ⌈q⌉ := Int.lt_ceil.mpr hq
    omega

/-- A real index within `[0, r-1]` rounds to an integer digit within
`[0, r)`. -/
theorem roundEven_digit_range (r : ℕ) (c : ℚ) (h0 : 0 ≤ c)
    (h1 : c ≤ (r : ℚ) - 1) :
    0 ≤ roundEven c ∧ roundEven c < (r : ℤ) := by
  constructor
  · have : (0 : ℤ) ≤ ⌊c⌋ := Int.floor_nonneg.mpr h0
    exact le_trans this (floor_le_roundEven c)
  · have hceil : ⌈c⌉ ≤ (r : ℤ) - 1 := by
      apply Int.ceil_le.mpr
      push_cast
      linarith
    have := roundEven_le_ceil c
    omega

/-- C5: `flatten_indexes` rounds each index and, with more than one index
dimension, computes the mixed-radix row-major key
`Σ_d idx[d] * Π_{d' > d} index_ranges[d']`; for in-range indexes the key
lies in `[0, Π index_ranges)`.  (The concrete `(3,4)` scenario is the
witness.) -/
theorem C5_flatten_indexes (ranges : List ℕ) (idx : List ℚ)
    (h2 : 2 ≤ ranges.length) (hlen : idx.length = ranges.length)
    (hin : ∀ p ∈ idx.zip ranges, 0 ≤ p.1 ∧ p.1 ≤ (p.2 : ℚ) - 1) :
    flatten_indexes ranges idx = mixedRadixKey ranges (idx.map roundEven) ∧
    0 ≤ flatten_indexes ranges idx ∧
    flatten_indexes ranges idx < ((ranges.prod : ℕ) : ℤ) := by
  have hne1 : ranges.length ≠ 1 := by omega
  have hmaplen : (idx.map roundEven).length = ranges.length := by
    simpa using hlen
  have heq : flatten_indexes ranges idx = mixedRadixKey ranges (idx.map roundEven) := by
    unfold flatten_indexes
    rw [if_neg hne1]
    match ranges, idx, h2, hlen with
    | r0 :: rs, x0 :: xs, _, hlen =>
      have : (xs.map roundEven).length = rs.length := by simpa using hlen
      simpa using dotProd_strides_eq_mixedRadixKey rs r0 (roundEven x0)
        (xs.map roundEven) this
  refine ⟨heq, ?_⟩
  rw [heq]
  apply mixedRadixKey_bound ranges (idx.map roundEven) hmaplen
  intro p hp
  rw [List.zip_map_left, List.mem_map] at hp
  obtain ⟨q, hq, hpq⟩ := hp
  obtain ⟨hq0, hq1⟩ := hin q hq
  have := roundEven_digit_range q.2 q.1 hq0 hq1
  rw [← hpq]
  simpa using this

/-- Witness for C5 at `index_ranges = (3, 4)`: `flatten_indexes (2, 3) = 11`
and `flatten_indexes (0, 0) = 0`, both inside `[0, 12)`. -/
theorem C5_witness :
    flatten_indexes [3, 4] [2, 3] = 11 ∧ flatten_indexes [3, 4] [0, 0] = 0 ∧
    (0 ≤ flatten_indexes [3, 4] [2, 3] ∧
      flatten_indexes [3, 4] [2, 3] < (((3 * 4 : ℕ) : ℕ) : ℤ)) := by
  have h := C5_flatten_indexes [3, 4] [2, 3] (by norm_num) (by norm_num)
    (by
      intro p hp
      have hcases : p = ((2 : ℚ), (3 : ℕ)) ∨ p = ((3 : ℚ), (4 : ℕ)) := by
        simpa using hp
      rcases hcases with h | h <;> (subst h; constructor <;> norm_num))
  refine ⟨?_, ?_, ?_⟩
  · norm_num [flatten_indexes, dotProd, flatten_strides, cumprodFrom, roundEven]
  · norm_num [flatten_indexes, dotProd, flatten_strides, cumprodFrom, roundEven]
  · simpa using h.2

/-- The one-dimensional clamp is idempotent. -/
theorem normalize_index1_idem (r : ℕ) (x : ℚ) :
    normalize_index1 r (normalize_index1 r x) = normalize_index1 r x := by
  unfold normalize_index1 upper_bound lower_bound
  rcases le_total ((0 : ℚ)) ((r : ℚ) - 1) with hb | hb
  · have h1 : 0 ≤ min (max x 0) ((r : ℚ) - 1) := le_min (le_max_right x 0) hb
    rw [max_eq_left h1, min_eq_left (min_le_right _ _)]
  · have h1 : min (max x 0) ((r : ℚ) - 1) = (r : ℚ) - 1 :=
      min_eq_right (hb.trans (le_max_right x 0))
    rw [h1, max_eq_right hb]
    exact min_eq_right hb

/-- The clamped value lies inside `[0, r-1]` whenever that interval is
non-empty (`r ≥ 1`). -/
theorem normalize_index1_mem (r : ℕ) (x : ℚ) (hr : 1 ≤ r) :
    0 ≤ normalize_index1 r x ∧ normalize_index1 r x ≤ (r : ℚ) - 1 := by
  unfold normalize_index1 upper_bound lower_bound
  have hb : (0 : ℚ) ≤ (r : ℚ) - 1 := by
    have : (1 : ℚ) ≤ (r : ℚ) := by exact_mod_cast hr
    linarith
  exact ⟨le_min (le_max_right x 0) hb, min_le_right _ _⟩

/-- C7: `normalize_indexes` is idempotent, and (whenever the declared
ranges are non-empty, `index_ranges[d] ≥ 1`) its output lies inside the
declared per-dimension interval `[0, index_ranges[d] - 1]`; out-of-range
inputs are clamped, never rejected. -/
theorem C7_normalize_indexes (ranges : List ℕ) (idx : List ℚ) :
    normalize_indexes ranges (normalize_indexes ranges idx)
      = normalize_indexes ranges idx ∧
    ∀ p ∈ (normalize_indexes ranges idx).zip ranges,
      1 ≤ p.2 → 0 ≤ p.1 ∧ p.1 ≤ (p.2 : ℚ) - 1 := by
  induction idx generalizing ranges with
  | nil =>
    constructor
    · cases ranges <;> rfl
    · cases ranges <;> simp [normalize_indexes]
  | cons x xs ih =>
    cases ranges with
    | nil => exact ⟨rfl, by simp [normalize_indexes]⟩
    | cons r rs =>
      obtain ⟨ih1, ih2⟩ := ih rs
      constructor
      · simp only [normalize_indexes, normalize_index1_idem, ih1]
      · intro p hp
        simp only [normalize_indexes, List.zip_cons_cons, List.mem_cons] at hp
        rcases hp with h | h
        · subst h
          intro hr
          exact normalize_index1_mem r x hr
        · exact ih2 p h

/-- Witness for C7 at `index_ranges = (3, 4)` and the out-of-range index
tuple `(5, -1)`. -/
theorem C7_witness :
    normalize_indexes [3, 4] (normalize_indexes [3, 4] [5, -1])
      = normalize_indexes [3, 4] [5, -1] ∧
    ∀ p ∈ (normalize_indexes [3, 4] [5, -1]).zip ([3, 4] : List ℕ),
      1 ≤ p.2 → 0 ≤ p.1 ∧ p.1 ≤ (p.2 : ℚ) - 1 :=
  C7_normalize_indexes [3, 4] [5, -1]

/-- Reading back a 3-byte little-endian length recovers any value below
`2^24`. -/
theorem to_bytes_3_le_inverse (n : ℕ) (h : n < 2 ^ 24) :
    (to_bytes_3_le n)[0]! + 256 * (to_bytes_3_le n)[1]!
      + 65536 * (to_bytes_3_le n)[2]! = n := by
  simp only [to_bytes_3_le]
  simp only [List.getElem!_cons_zero, List.getElem!_cons_succ]
  omega

/-- Parsing the length-prefixed concatenation recovers every unit, in
order, with its original length. -/
theorem split_units_fuel_concat_payload (units : List (List ℕ)) :
    ∀ fuel, (∀ u ∈ units, u.length < 2 ^ 24) →
    (concat_payload units).length ≤ fuel →
    split_units_fuel fuel (concat_payload units) = some units := by
  induction units with
  | nil =>
    intro fuel _ _
    cases fuel <;> rfl
  | cons u us ih =>
    intro fuel hlen hfuel
    have hu : u.length < 2 ^ 24 := hlen u (List.mem_cons_self u us)
    have hpayload : concat_payload (u :: us)
        = to_bytes_3_le u.length ++ (u ++ concat_payload us) := by
      simp [concat_payload, to_bytes_3_le, List.append_assoc]
    rw [hpayload] at hfuel ⊢
    have hlen3 : (to_bytes_3_le u.length ++ (u ++ concat_payload us)).length
        = 3 + (u.length + (concat_payload us).length) := by
      simp [to_bytes_3_le]
      omega
    match fuel, hfuel with
    | fuel + 1, hfuel =>
      show split_units_fuel (fuel + 1)
        (u.length % 256 :: (u.length / 256 % 256 :: (u.length / 65536 % 256 ::
          (u ++ concat_payload us)))) = some (u :: us)
      rw [split_units_fuel]
      have hn : u.length % 256 + 256 * (u.length / 256 % 256)
          + 65536 * (u.length / 65536 % 256) = u.length := by
        omega
      rw [hn]
      have hle : u.length ≤ (u ++ concat_payload us).length := by
        simp
      rw [if_pos hle]
      have htake : (u ++ concat_payload us).take u.length = u :=
        List.take_left u (concat_payload us)
      have hdrop : (u ++ concat_payload us).drop u.length = concat_payload us :=
        List.drop_left u (concat_payload us)
      rw [htake, hdrop]
      have hfuel' : (concat_payload us).length ≤ fuel := by
        rw [hlen3] at hfuel
        omega
      have hresttail : ∀ v ∈ us, v.length < 2 ^ 24 := by
        intro v hv
        exact hlen v (List.mem_cons_of_mem u hv)
      rw [ih fuel hresttail hfuel']

/-- C6: concatenating coding units, each preceded by its 3-byte
little-endian length, then decoding the concatenation recovers exactly the
original units in their original order with their original lengths (for a
non-empty list of units each shorter than `2^24` bytes; on an empty list
the `functools.reduce` in `compress_partitions` has nothing to fold). -/
theorem C6_partition_framing_round_trip (units : List (List ℕ))
    (hne : units ≠ []) (hlen : ∀ u ∈ units, u.length < 2 ^ 24) :
    compress_partitions_framing units = some (concat_payload units) ∧
    decompress_partitions_framing (concat_payload units) = some units := by
  constructor
  · unfold compress_partitions_framing
    match units, hne with
    | u :: us, _ => rfl
  · unfold decompress_partitions_framing
    exact split_units_fuel_concat_payload units (concat_payload units).length
      hlen le_rfl

/-- Witness for C6: ten coding units of varying length (several empty or
short) survive the framing round trip. -/
theorem C6_witness :
    compress_partitions_framing
        [[1], [2, 3], [], [4, 5, 6], [7], [], [8, 9], [10], [11, 12, 13, 14], [15]]
      = some (concat_payload
        [[1], [2, 3], [], [4, 5, 6], [7], [], [8, 9], [10], [11, 12, 13, 14], [15]]) ∧
    decompress_partitions_framing (concat_payload
        [[1], [2, 3], [], [4, 5, 6], [7], [], [8, 9], [10], [11, 12, 13, 14], [15]])
      = some [[1], [2, 3], [], [4, 5, 6], [7], [], [8, 9], [10], [11, 12, 13, 14], [15]] :=
  C6_partition_framing_round_trip
    [[1], [2, 3], [], [4, 5, 6], [7], [], [8, 9], [10], [11, 12, 13, 14], [15]]
    (by decide) (by decide)

/-- Clamping is the identity on an index tuple already inside the declared
ranges. -/
theorem normalize_indexes_id (ranges : List ℕ) (t : List ℚ)
    (hlen : t.length = ranges.length)
    (hin : ∀ p ∈ t.zip ranges, 0 ≤ p.1 ∧ p.1 ≤ (p.2 : ℚ) - 1) :
    normalize_indexes ranges t = t := by
  induction t generalizing ranges with
  | nil =>
    rw [List.length_nil] at hlen
    have : ranges = [] := List.length_eq_zero.mp hlen.symm
    subst this
    rfl
  | cons x xs ih =>
    cases ranges with
    | nil => simp at hlen
    | cons r rs =>
      have hhead : 0 ≤ x ∧ x ≤ (r : ℚ) - 1 :=
        hin (x, r) (by simp [List.zip_cons_cons])
      have htail : ∀ p ∈ xs.zip rs, 0 ≤ p.1 ∧ p.1 ≤ (p.2 : ℚ) - 1 := by
        intro p hp
        exact hin p (by simp [List.zip_cons_cons, hp])
      have hlen' : xs.length = rs.length := by simpa using hlen
      show normalize_index1 r x :: normalize_indexes rs xs = x :: xs
      rw [ih rs hlen' htail]
      unfold normalize_index1 upper_bound lower_bound
      rw [max_eq_left hhead.1, min_eq_left hhead.2]

/-- Fusing a `zipWith` over a `zipWith` and a mapped copy of the same
list. -/
theorem zipWith_zipWith_map {α β γ δ ε : Type} (f : γ → δ → ε) (g : α → β → γ)
    (q : β → δ) : ∀ (x : List α) (l : List β),
    List.zipWith f (List.zipWith g x l) (l.map q)
      = List.zipWith (fun a b => f (g a b) (q b)) x l := by
  intro x
  induction x with
  | nil => intro l; rfl
  | cons a as ih =>
    intro l
    cases l with
    | nil => rfl
    | cons b bs => simp [List.zipWith_cons_cons, ih]

/-- C1: for payloads and index tuples whose indexes lie inside the declared
ranges (so that normalization is the identity), `compress` produces the
symbols `round(x - offset(idx))` and `decompress` returns exactly
`round(x - offset(idx)) + offset(idx)` — the quantized value is reproduced
bit-identically under the spec's lossless range-coder contract. -/
theorem C1_round_trip (s : CDFTableState) (qoff : List ℚ → ℚ)
    (ranges : List ℕ) (x : List ℚ) (indexes : List (List ℚ))
    (hlen : indexes.length = x.length)
    (htuple : ∀ t ∈ indexes, t.length = ranges.length ∧
      ∀ p ∈ t.zip ranges, 0 ≤ p.1 ∧ p.1 ≤ (p.2 : ℚ) - 1) :
    compress_unit s qoff ranges x indexes
      = .ok (List.zipWith (fun xi t => roundEven (xi - qoff t)) x indexes) ∧
    decompress_unit s qoff ranges
        (List.zipWith (fun xi t => roundEven (xi - qoff t)) x indexes) indexes
      = List.zipWith (fun xi t => (roundEven (xi - qoff t) : ℚ) + qoff t) x indexes := by
  have hid : indexes.map (normalize_indexes ranges) = indexes := by
    apply List.map_congr_left ?_ |>.trans (List.map_id indexes)
    intro t ht
    exact normalize_indexes_id ranges t (htuple t ht).1 (htuple t ht).2
  constructor
  · unfold compress_unit
    rw [hid]
    have hflen : (indexes.map (flatten_indexes ranges)).length = x.length := by
      simpa using hlen
    rw [if_pos hflen]
    unfold encode_with_indexes
    show Except.ok (List.zipWith (fun xi oi => (quantize xi oi false).1) x
        (indexes.map qoff))
      = Except.ok (List.zipWith (fun xi t => roundEven (xi - qoff t)) x indexes)
    rw [List.zipWith_map_right x indexes qoff
      (fun xi oi => (quantize xi oi false).1)]
    rfl
  · unfold decompress_unit decode_with_indexes dequantize
    rw [hid]
    exact zipWith_zipWith_map _ _ _ x indexes

/-- Witness for C1: a one-dimensional table (`index_ranges = (4,)`), offset
policy `1/2`, payload `3/2` at index `2`; the decompressed value is the
quantized-then-dequantized `3/2`. -/
theorem C1_witness :
    compress_unit ⟨false, [[0, 65536]], [2], [0]⟩ (fun _ => 1/2) [4] [3/2] [[2]]
      = .ok (List.zipWith (fun xi t => roundEven (xi - (fun _ => (1:ℚ)/2) t))
          [3/2] [[2]]) ∧
    decompress_unit ⟨false, [[0, 65536]], [2], [0]⟩ (fun _ => 1/2) [4]
        (List.zipWith (fun xi t => roundEven (xi - (fun _ => (1:ℚ)/2) t))
          [3/2] [[2]]) [[2]]
      = List.zipWith (fun xi t => (roundEven (xi - (fun _ => (1:ℚ)/2) t) : ℚ)
          + (fun _ => (1:ℚ)/2) t) [3/2] [[2]] :=
  C1_round_trip ⟨false, [[0, 65536]], [2], [0]⟩ (fun _ => 1/2) [4] [3/2] [[2]]
    (by norm_num)
    (by
      intro t ht
      have hteq : t = [(2 : ℚ)] := by simpa using ht
      subst hteq
      refine ⟨by norm_num, ?_⟩
      intro p hp
      have hpeq : p = ((2 : ℚ), (4 : ℕ)) := by simpa using hp
      subst hpeq
      constructor <;> norm_num)

/-- Lengths are preserved by `cumsumFrom`. -/
theorem cumsumFrom_length : ∀ (l : List ℚ) (acc : ℚ),
    (cumsumFrom acc l).length = l.length := by
  intro l
  induction l with
  | nil => intro acc; rfl
  | cons x xs ih => intro acc; simp [cumsumFrom, ih]

/-- Lengths are preserved by `monotonizeFrom`. -/
theorem monotonizeFrom_length : ∀ (l : List ℤ) (prev : ℤ),
    (monotonizeFrom prev l).length = l.length := by
  intro l
  induction l with
  | nil => intro prev; rfl
  | cons x xs ih => intro prev; simp [monotonizeFrom, ih]

/-- The running maximum pinned by a dominating final entry is a
non-decreasing chain. -/
theorem chain_monotonize_pin (B : ℤ) : ∀ (l : List ℤ) (prev : ℤ), prev ≤ B →
    (∀ y ∈ l, y ≤ B) →
    List.Chain' (· ≤ ·) (prev :: (monotonizeFrom prev l ++ [B])) := by
  intro l
  induction l with
  | nil =>
    intro prev hp _
    simp [monotonizeFrom, List.chain'_cons, hp]
  | cons x xs ih =>
    intro prev hp hl
    have hx : x ≤ B := hl x (by simp)
    have hrec : List.Chain' (· ≤ ·)
        (max prev x :: (monotonizeFrom (max prev x) xs ++ [B])) :=
      ih (max prev x) (max_le hp hx) (fun y hy => hl y (by simp [hy]))
    simp only [monotonizeFrom, List.cons_append]
    exact List.Chain'.cons (le_max_left prev x) hrec

/-- Partial sums of a non-negative list stay between the accumulator and
the accumulator plus the total. -/
theorem cumsumFrom_bounds : ∀ (l : List ℚ), (∀ a ∈ l, 0 ≤ a) →
    ∀ (acc : ℚ), ∀ sm ∈ cumsumFrom acc l, acc ≤ sm ∧ sm ≤ acc + l.sum := by
  intro l
  induction l with
  | nil =>
    intro _ acc sm h
    simp [cumsumFrom] at h
  | cons x xs ih =>
    intro hl acc sm h
    have hx : 0 ≤ x := hl x (by simp)
    have hxs : ∀ a ∈ xs, 0 ≤ a := fun a ha => hl a (by simp [ha])
    have hsum : 0 ≤ xs.sum := List.sum_nonneg hxs
    simp only [cumsumFrom, List.mem_cons] at h
    rcases h with h | h
    · subst h
      refine ⟨by linarith, ?_⟩
      rw [List.sum_cons]
      linarith
    · obtain ⟨h1, h2⟩ := ih hxs (acc + x) sm h
      refine ⟨by linarith, ?_⟩
      rw [List.sum_cons]
      linarith

/-- Rounding half up never exceeds an integer upper bound of the
argument. -/
theorem roundHalfUp_le_of_le (x : ℚ) (P : ℕ) (h : x ≤ (P : ℚ)) :
    roundHalfUp x ≤ (P : ℤ) := by
  unfold roundHalfUp
  have hmono : ⌊x + 1/2⌋ ≤ ⌊(1 : ℚ)/2 + (P : ℚ)⌋ :=
    Int.floor_le_floor (by linarith)
  rw [Int.floor_add_nat ((1 : ℚ)/2) P] at hmono
  norm_num at hmono
  exact_mod_cast hmono

/-- Every scaled, rounded cumulative-sum entry of the quantizer is at most
`2^precision`. -/
theorem quantizer_entry_le (q : List ℚ) (hq : ∀ a ∈ q, 0 ≤ a) (P : ℕ) :
    ∀ y ∈ (cumsumFrom 0 q).map
      (fun sm => roundHalfUp (sm / q.sum * (P : ℚ))), y ≤ (P : ℤ) := by
  intro y hy
  rw [List.mem_map] at hy
  obtain ⟨sm, hsm, rfl⟩ := hy
  obtain ⟨h0, h1⟩ := cumsumFrom_bounds q hq 0 sm hsm
  rw [zero_add] at h1
  apply roundHalfUp_le_of_le
  rcases eq_or_lt_of_le (h0.trans h1) with htot | htot
  · have hsm0 : sm = 0 := le_antisymm (h1.trans_eq htot.symm) h0
    rw [hsm0, ← htot, div_zero, zero_mul]
    positivity
  · have hdiv : sm / q.sum ≤ 1 := (div_le_one htot).mpr h1
    have : sm / q.sum * (P : ℚ) ≤ 1 * (P : ℚ) :=
      mul_le_mul_of_nonneg_right hdiv (by positivity)
    linarith

/-- Length of the quantized CDF: one more entry than the PMF (which always
has its appended overflow bin, hence is non-empty). -/
theorem pmf_to_quantized_cdf_length (pmf : List ℚ) (prec : ℕ)
    (hne : pmf ≠ []) :
    (pmf_to_quantized_cdf pmf prec).length = pmf.length + 1 := by
  unfold pmf_to_quantized_cdf
  have h1 : ((cumsumFrom 0 pmf).map
      (fun sm => roundHalfUp (sm / pmf.sum * ((2 ^ prec : ℕ) : ℚ)))).length
      = pmf.length := by
    simp [cumsumFrom_length]
  have hlen0 : 1 ≤ pmf.length := by
    cases pmf with
    | nil => exact absurd rfl hne
    | cons a l => simp
  simp [monotonizeFrom_length, List.length_dropLast, cumsumFrom_length, h1]
  omega

/-- C2: the valid slice of every stored CDF row of the table builder starts
at 0, is non-decreasing, ends at `2^16`, and the stored validity length is
`pmf_length + 2` (overflow bin plus terminal entry). -/
theorem C2_cdf_row_invariants (pmf : List ℚ) (pl max_length : ℕ)
    (hnn : ∀ a ∈ pmf, 0 ≤ a) (hpl : pl ≤ pmf.length) (hml : pl ≤ max_length) :
    ((batched_row pmf pl max_length).take (cdf_length_of pl)).head? = some 0 ∧
    List.Chain' (· ≤ ·)
      ((batched_row pmf pl max_length).take (cdf_length_of pl)) ∧
    ((batched_row pmf pl max_length).take (cdf_length_of pl)).getLast?
      = some (2 ^ 16) ∧
    cdf_length_of pl = pl + 2 := by
  have hpnn : ∀ a ∈ pmf.take pl, 0 ≤ a :=
    fun a ha => hnn a (List.mem_of_mem_take ha)
  have hqnn : ∀ a ∈ pmf.take pl ++ [max 0 (1 - (pmf.take pl).sum)], 0 ≤ a := by
    intro a ha
    rw [List.mem_append] at ha
    rcases ha with ha | ha
    · exact hpnn a ha
    · rw [List.mem_singleton] at ha
      rw [ha]
      exact le_max_left 0 _
  have hqlen : (pmf.take pl ++ [max 0 (1 - (pmf.take pl).sum)]).length
      = pl + 1 := by
    simp [List.length_take, Nat.min_eq_left hpl]
  have hclen : (pmf_to_quantized_cdf
      (pmf.take pl ++ [max 0 (1 - (pmf.take pl).sum)]) 16).length = pl + 2 := by
    rw [pmf_to_quantized_cdf_length _ _ (by simp), hqlen]
  have htake : (batched_row pmf pl max_length).take (cdf_length_of pl)
      = pmf_to_quantized_cdf (pmf.take pl ++ [max 0 (1 - (pmf.take pl).sum)]) 16 := by
    show (pmf_to_quantized_cdf _ 16 ++ List.replicate _ 0).take (cdf_length_of pl) = _
    rw [show cdf_length_of pl = (pmf_to_quantized_cdf
      (pmf.take pl ++ [max 0 (1 - (pmf.take pl).sum)]) 16).length from hclen.symm]
    exact List.take_left _ _
  rw [htake]
  refine ⟨rfl, ?_, ?_, rfl⟩
  · show List.Chain' (· ≤ ·) (0 :: (monotonizeFrom 0 _ ++ [((2 ^ 16 : ℕ) : ℤ)]))
    apply chain_monotonize_pin
    · positivity
    · intro y hy
      exact quantizer_entry_le _ hqnn (2 ^ 16) y (List.mem_of_mem_dropLast hy)
  · show (0 :: (monotonizeFrom 0 _ ++ [((2 ^ 16 : ℕ) : ℤ)])).getLast? = some (2 ^ 16)
    rw [show (0 : ℤ) :: (monotonizeFrom 0 _ ++ [((2 ^ 16 : ℕ) : ℤ)])
      = ((0 : ℤ) :: monotonizeFrom 0 _) ++ [((2 ^ 16 : ℕ) : ℤ)] from rfl]
    rw [List.getLast?_concat]
    norm_num

/-- Witness for C2 at the concrete PMF `[1/2, 1/4]` (overflow bin `1/4`):
the valid row is `[0, 32768, 49152, 65536]`. -/
theorem C2_witness :
    ((batched_row [1/2, 1/4] 2 2).take (cdf_length_of 2)).head? = some 0 ∧
    List.Chain' (· ≤ ·) ((batched_row [1/2, 1/4] 2 2).take (cdf_length_of 2)) ∧
    ((batched_row [1/2, 1/4] 2 2).take (cdf_length_of 2)).getLast?
      = some (2 ^ 16) ∧
    cdf_length_of 2 = 2 + 2 :=
  C2_cdf_row_invariants [1/2, 1/4] 2 2
    (by
      intro a ha
      have : a = (1 : ℚ)/2 ∨ a = (1 : ℚ)/4 := by simpa using ha
      rcases this with h | h <;> (rw [h]; norm_num))
    (by norm_num) (by norm_num)

end FastPCC
